import Mathlib

/-!
Verification of `src/datasets/get_data.py`: a fetch-extract-cleanup pipeline.
The script downloads a zip archive with `wget.download`, opens it with
`ZipFile("kias.zip", "r")`, extracts every name of `zip_ref.namelist()` in a
`tqdm`-wrapped loop via `zip_ref.extract(member=file)`, and finally runs
`os.remove("kias.zip")`.

The embedding models the working directory as an association list from paths
to file contents.  A path is embedded as the list of its `/`-separated
components.  Member extraction follows the documented behavior of CPython
`Lib/zipfile.py` (`ZipFile._extract_member` on a POSIX platform): the member
filename is split at the path separator, the components `""`, `"."` and
`".."` are dropped, and the decompressed bytes are written at the resulting
relative path under the current working directory, overwriting any existing
file there.  Extraction by name goes through `ZipFile.getinfo`, whose
`NameToInfo` dictionary maps a filename to the last directory entry bearing
it.  Opening a non-zip file raises `BadZipFile` (a format error) before any
member is extracted, and `os.remove` on a missing path raises
`FileNotFoundError`.
-/

set_option autoImplicit false

namespace GetData

/-- A path, embedded as the list of its slash-separated components. -/
abbrev Path := List String

/-- File content as a byte sequence. -/
abbrev Bytes := List Nat

/-- One named entry of the archive: its filename (as path components) and its
decompressed byte content. -/
structure Member where
  name : Path
  content : Bytes
deriving DecidableEq, Repr

/-- What the fixed URL serves: either a well-formed zip container with its
list of members, or bytes that are not a valid zip file. -/
inductive RemoteData where
  | malformed (raw : Bytes)
  | archive (members : List Member)
deriving DecidableEq, Repr

/-- Content of a file in the working directory: the downloaded container
file itself, or the bytes of an extracted member. -/
inductive FileContent where
  | container (d : RemoteData)
  | bytes (b : Bytes)
deriving DecidableEq, Repr

instance : Inhabited FileContent := ⟨.bytes []⟩

/-- The working directory: a finite map from paths to file contents,
represented as an association list. -/
abbrev FS := List (Path × FileContent)

/-- Errors of the pipeline, per the error taxonomy of the spec: `wget`
failure, `BadZipFile`, `FileNotFoundError` from `os.remove`. -/
inductive PipelineError where
  | networkError
  | formatError
  | notFoundError
deriving DecidableEq, Repr

/-- The environment a run starts in: what the network serves (`none` means
the remote is unreachable / the transfer fails) and the initial contents of
the working directory. -/
structure World where
  network : Option RemoteData
  fs : FS
deriving DecidableEq, Repr

/-- Result of a run: the final working directory, and the unhandled error
that aborted the run, if any (`none` means the script exited successfully). -/
structure Outcome where
  fs : FS
  err : Option PipelineError
deriving DecidableEq, Repr

/-- Look up the content of the file at path `p`. -/
def getFile : FS → Path → Option FileContent
  | [], _ => none
  | (q, c) :: fs, p => if q = p then some c else getFile fs p

/-- Whether a file exists at path `p`. -/
def hasKey : FS → Path → Bool
  | [], _ => false
  | (q, _) :: fs, p => if q = p then true else hasKey fs p

/-- Remove every entry stored at path `p`. -/
def eraseKey : FS → Path → FS
  | [], _ => []
  | (q, c) :: fs, p => if q = p then eraseKey fs p else (q, c) :: eraseKey fs p

/-- Write content `c` at path `p`, overwriting any existing file there. -/
def setFile (fs : FS) (p : Path) (c : FileContent) : FS :=
  (p, c) :: eraseKey fs p

/-- `NAME = "kias.zip"`, the fixed destination filename of the script. -/
def NAME : String := "kias.zip"

/-- The path of the downloaded archive file in the working directory. -/
def archivePath : Path := [NAME]

/-- `zip_ref.namelist()`: the filenames of the archive entries, in directory
table order. -/
def namelist (ms : List Member) : List Path :=
  ms.map (·.name)

/-- `zip_ref.getinfo(n)`: CPython builds `NameToInfo` by inserting the
entries in directory order into a dict, so a filename maps to the last entry
bearing it. -/
def getinfo : List Member → Path → Option Member
  | [], _ => none
  | m :: ms, n =>
    match getinfo ms n with
    | some r => some r
    | none => if m.name = n then some m else none

/-- The path sanitization of CPython `ZipFile._extract_member` on POSIX: the
member filename is split at `/` and the components `""` (also covering
absolute paths), `"."` and `".."` are dropped, yielding a relative path
under the extraction target directory. -/
def sanitize (p : Path) : Path :=
  p.filter fun c => decide (c ≠ "" ∧ c ≠ "." ∧ c ≠ "..")

/-- A path that stays inside the working directory when resolved against it:
all components are plain names (no `""`, `"."` or `".."`). -/
def insideCwd (p : Path) : Bool :=
  p.all fun c => decide (c ≠ "" ∧ c ≠ "." ∧ c ≠ "..")

/-- `zip_ref.extract(member=n)`: look the name up via `getinfo` and write
the member bytes at its sanitized path, overwriting an existing file.  A
name not in the archive would raise `KeyError`; the script only extracts
names taken from `namelist`, for which `getinfo` always succeeds, so that
branch is unreachable and modelled as a no-op. -/
def extract (ms : List Member) (fs : FS) (n : Path) : FS :=
  match getinfo ms n with
  | some m => setFile fs (sanitize m.name) (.bytes m.content)
  | none => fs

/-- The extraction loop, `for file in tqdm(iterable=zip_ref.namelist(), ...):
zip_ref.extract(member=file)`.  Besides the working directory it returns the
sequence of names whose processing the tqdm counter reported, in the order
they were processed. -/
def extractLoop (fs : FS) (ms : List Member) : FS × List Path :=
  (namelist ms).foldl (fun acc n => (extract ms acc.1 n, acc.2 ++ [n])) (fs, [])

/-- The extraction loop with the progress reporting removed:
`for file in zip_ref.namelist(): zip_ref.extract(member=file)`. -/
def extractLoopSilent (fs : FS) (ms : List Member) : FS :=
  (namelist ms).foldl (extract ms) fs

/-- `os.remove(p)`: delete the file at `p`, failing with
`FileNotFoundError` when no file exists there. -/
def osRemove (fs : FS) (p : Path) : Except PipelineError FS :=
  if hasKey fs p then .ok (eraseKey fs p) else .error .notFoundError

/-- The cleanup stage, `os.remove("kias.zip")`, turned into the final
outcome of the run. -/
def cleanup (fs : FS) : Outcome :=
  match osRemove fs archivePath with
  | .ok fs1 => ⟨fs1, none⟩
  | .error e => ⟨fs, some e⟩

/-- The whole pipeline of `get_data.py`: `wget.download` (fails with a
network error when the remote is unreachable), `ZipFile` open (fails with
`BadZipFile` on a malformed file), the extraction loop, and
`os.remove("kias.zip")`. -/
def run (w : World) : Outcome :=
  match w.network with
  | none => ⟨w.fs, some .networkError⟩
  | some d =>
    let fs1 := setFile w.fs archivePath (.container d)
    match d with
    | .malformed _ => ⟨fs1, some .formatError⟩
    | .archive ms => cleanup (extractLoop fs1 ms).1

/-- The same pipeline with progress reporting removed (the tqdm wrapper
dropped from the loop). -/
def runSilent (w : World) : Outcome :=
  match w.network with
  | none => ⟨w.fs, some .networkError⟩
  | some d =>
    let fs1 := setFile w.fs archivePath (.container d)
    match d with
    | .malformed _ => ⟨fs1, some .formatError⟩
    | .archive ms => cleanup (extractLoopSilent fs1 ms)

/-- A well-formed archive in the sense of the spec invariant "exactly one
file per Member, named per the Member's record": entry names are pairwise
distinct, already in sanitized relative form, and distinct from the archive
file's own name. -/
def WellFormed (ms : List Member) : Prop :=
  (namelist ms).Nodup ∧ ∀ m ∈ ms, sanitize m.name = m.name ∧ m.name ≠ archivePath

/-- Writing every member of a list in order at its sanitized path: the
specification-level view of the extraction loop. -/
def writeMembers : FS → List Member → FS
  | fs, [] => fs
  | fs, m :: ms => writeMembers (setFile fs (sanitize m.name) (.bytes m.content)) ms


/-! ### Basic lemmas about the working-directory map -/

theorem getFile_eraseKey (fs : FS) (p q : Path) :
    getFile (eraseKey fs p) q = if q = p then none else getFile fs q := by
  induction fs with
  | nil => simp [eraseKey, getFile]
  | cons e fs ih =>
    obtain ⟨k, v⟩ := e
    by_cases hk : k = p
    · rw [show eraseKey ((k, v) :: fs) p = eraseKey fs p by simp [eraseKey, hk], ih]
      by_cases hq : q = p
      · simp [hq]
      · have hkq : ¬ k = q := by rw [hk]; exact fun hh => hq hh.symm
        simp [getFile, hq, hkq]
    · rw [show eraseKey ((k, v) :: fs) p = (k, v) :: eraseKey fs p by simp [eraseKey, hk]]
      by_cases hkq : k = q
      · have hqp : ¬ q = p := fun hh => hk (hkq.trans hh)
        simp [getFile, hkq, hqp]
      · simp [getFile, hkq, ih]

theorem getFile_eraseKey_self (fs : FS) (p : Path) :
    getFile (eraseKey fs p) p = none := by
  simp [getFile_eraseKey]

theorem getFile_setFile_self (fs : FS) (p : Path) (c : FileContent) :
    getFile (setFile fs p c) p = some c := by
  simp [setFile, getFile]

theorem getFile_setFile_ne (fs : FS) (p q : Path) (c : FileContent) (h : q ≠ p) :
    getFile (setFile fs p c) q = getFile fs q := by
  have hp : ¬ p = q := fun hh => h hh.symm
  simp [setFile, getFile, hp, getFile_eraseKey, h]

theorem hasKey_eraseKey (fs : FS) (p q : Path) :
    hasKey (eraseKey fs p) q = if q = p then false else hasKey fs q := by
  induction fs with
  | nil => simp [eraseKey, hasKey]
  | cons e fs ih =>
    obtain ⟨k, v⟩ := e
    by_cases hk : k = p
    · rw [show eraseKey ((k, v) :: fs) p = eraseKey fs p by simp [eraseKey, hk], ih]
      by_cases hq : q = p
      · simp [hq]
      · have hkq : ¬ k = q := by rw [hk]; exact fun hh => hq hh.symm
        simp [hasKey, hq, hkq]
    · rw [show eraseKey ((k, v) :: fs) p = (k, v) :: eraseKey fs p by simp [eraseKey, hk]]
      by_cases hkq : k = q
      · have hqp : ¬ q = p := fun hh => hk (hkq.trans hh)
        simp [hasKey, hkq, hqp]
      · simp [hasKey, hkq, ih]

theorem hasKey_setFile (fs : FS) (p q : Path) (c : FileContent) :
    hasKey (setFile fs p c) q = if q = p then true else hasKey fs q := by
  by_cases h : q = p
  · simp [setFile, hasKey, h]
  · have hp : ¬ p = q := fun hh => h hh.symm
    simp [setFile, hasKey, hp, h, hasKey_eraseKey]

theorem hasKey_eq_true_iff (fs : FS) (p : Path) :
    hasKey fs p = true ↔ p ∈ fs.map (·.1) := by
  induction fs with
  | nil => simp [hasKey]
  | cons e fs ih =>
    obtain ⟨k, v⟩ := e
    by_cases hk : k = p
    · simp [hasKey, hk]
    · have hp : ¬ p = k := fun hh => hk hh.symm
      simp [hasKey, hk, ih, hp]

theorem getFile_none_iff (fs : FS) (p : Path) :
    getFile fs p = none ↔ hasKey fs p = false := by
  induction fs with
  | nil => simp [getFile, hasKey]
  | cons e fs ih =>
    obtain ⟨k, v⟩ := e
    by_cases hk : k = p <;> simp [getFile, hasKey, hk, ih]

theorem eraseKey_of_not_hasKey (fs : FS) (p : Path) (h : hasKey fs p = false) :
    eraseKey fs p = fs := by
  induction fs with
  | nil => rfl
  | cons e fs ih =>
    obtain ⟨k, v⟩ := e
    by_cases hk : k = p
    · simp [hasKey, hk] at h
    · simp only [hasKey, if_neg hk] at h
      simp [eraseKey, hk, ih h]

theorem eraseKey_idem (fs : FS) (p : Path) :
    eraseKey (eraseKey fs p) p = eraseKey fs p := by
  apply eraseKey_of_not_hasKey
  simp [hasKey_eraseKey]

theorem eraseKey_comm (fs : FS) (p q : Path) :
    eraseKey (eraseKey fs p) q = eraseKey (eraseKey fs q) p := by
  induction fs with
  | nil => rfl
  | cons e fs ih =>
    obtain ⟨k, v⟩ := e
    by_cases hp : k = p
    · by_cases hq : k = q
      · have hpq : p = q := by rw [← hp, hq]
        rw [hpq]
      · have hpq : ¬ p = q := fun hh => hq (hp.trans hh)
        simp [eraseKey, hp, hq, hpq, ih]
    · by_cases hq : k = q
      · have hqp : ¬ q = p := fun hh => hp (hq.trans hh)
        simp [eraseKey, hp, hq, hqp, ih]
      · simp [eraseKey, hp, hq, ih]

theorem eraseKey_setFile_self (fs : FS) (p : Path) (c : FileContent) :
    eraseKey (setFile fs p c) p = eraseKey fs p := by
  simp [setFile, eraseKey, eraseKey_idem]

theorem eraseKey_setFile_ne (fs : FS) (p q : Path) (c : FileContent) (h : ¬ p = q) :
    eraseKey (setFile fs p c) q = setFile (eraseKey fs q) p c := by
  simp [setFile, eraseKey, h, eraseKey_comm]

theorem mem_keys_of_mem_keys_eraseKey (fs : FS) (p q : Path)
    (h : q ∈ (eraseKey fs p).map (·.1)) : q ∈ fs.map (·.1) := by
  induction fs with
  | nil => simp [eraseKey] at h
  | cons e fs ih =>
    obtain ⟨k, v⟩ := e
    by_cases hk : k = p
    · simp only [eraseKey, if_pos hk] at h
      simp [ih h]
    · simp only [eraseKey, if_neg hk, List.map_cons, List.mem_cons] at h
      rcases h with h | h
      · simp [h]
      · simp [ih h]

theorem nodup_keys_eraseKey (fs : FS) (p : Path)
    (hnd : (fs.map (·.1)).Nodup) : ((eraseKey fs p).map (·.1)).Nodup := by
  induction fs with
  | nil => simp [eraseKey]
  | cons e fs ih =>
    obtain ⟨k, v⟩ := e
    simp only [List.map_cons, List.nodup_cons] at hnd
    by_cases hk : k = p
    · simp only [eraseKey, if_pos hk]
      exact ih hnd.2
    · simp only [eraseKey, if_neg hk, List.map_cons, List.nodup_cons]
      exact ⟨fun hmem => hnd.1 (mem_keys_of_mem_keys_eraseKey fs p k hmem), ih hnd.2⟩

theorem nodup_keys_setFile (fs : FS) (p : Path) (c : FileContent)
    (hnd : (fs.map (·.1)).Nodup) : ((setFile fs p c).map (·.1)).Nodup := by
  simp only [setFile, List.map_cons, List.nodup_cons]
  refine ⟨fun hmem => ?_, nodup_keys_eraseKey fs p hnd⟩
  have hk : hasKey (eraseKey fs p) p = true := (hasKey_eq_true_iff _ _).2 hmem
  simp [hasKey_eraseKey] at hk

theorem length_eraseKey_of_hasKey (fs : FS) (p : Path)
    (hnd : (fs.map (·.1)).Nodup) (h : hasKey fs p = true) :
    (eraseKey fs p).length = fs.length - 1 := by
  induction fs with
  | nil => simp [hasKey] at h
  | cons e fs ih =>
    obtain ⟨k, v⟩ := e
    simp only [List.map_cons, List.nodup_cons] at hnd
    by_cases hk : k = p
    · have hf : hasKey fs p = false := by
        rcases Bool.eq_false_or_eq_true (hasKey fs p) with hb | hb
        · exfalso
          apply hnd.1
          rw [hk]
          exact (hasKey_eq_true_iff fs p).1 hb
        · exact hb
      simp [eraseKey, hk, eraseKey_of_not_hasKey fs p hf]
    · simp only [hasKey, if_neg hk] at h
      have hlen := ih hnd.2 h
      have hpos : 0 < fs.length := by
        rcases fs with _ | ⟨f, fs⟩
        · simp [hasKey] at h
        · simp
      simp only [eraseKey, if_neg hk, List.length_cons, hlen]
      omega

theorem length_setFile_of_not_hasKey (fs : FS) (p : Path) (c : FileContent)
    (h : hasKey fs p = false) : (setFile fs p c).length = fs.length + 1 := by
  simp [setFile, eraseKey_of_not_hasKey fs p h]

/-! ### Lemmas about the archive operations -/

theorem getinfo_eq_none (ms : List Member) (n : Path)
    (h : ∀ m ∈ ms, m.name ≠ n) : getinfo ms n = none := by
  induction ms with
  | nil => rfl
  | cons m ms ih =>
    have htail := ih fun m' hm' => h m' (List.mem_cons_of_mem _ hm')
    simp [getinfo, htail, h m (List.mem_cons_self _ _)]

theorem getinfo_self_of_nodup (ms : List Member) (hnd : (namelist ms).Nodup) :
    ∀ m ∈ ms, getinfo ms m.name = some m := by
  induction ms with
  | nil => simp
  | cons m0 ms ih =>
    simp only [namelist, List.map_cons, List.nodup_cons] at hnd
    intro m hm
    rcases List.mem_cons.1 hm with rfl | hm
    · have hnone : getinfo ms m.name = none :=
        getinfo_eq_none ms m.name fun m' hm' hn =>
          hnd.1 (hn ▸ List.mem_map_of_mem (·.name) hm')
      simp [getinfo, hnone]
    · simp [getinfo, ih hnd.2 m hm]

theorem extractLoop_aux (ms : List Member) (ns : List Path) (fs : FS) (acc : List Path) :
    ns.foldl (fun a n => (extract ms a.1 n, a.2 ++ [n])) (fs, acc)
      = (ns.foldl (extract ms) fs, acc ++ ns) := by
  induction ns generalizing fs acc with
  | nil => simp
  | cons n ns ih => simp [ih]

theorem extractLoop_eq (fs : FS) (ms : List Member) :
    extractLoop fs ms = (extractLoopSilent fs ms, namelist ms) := by
  simp [extractLoop, extractLoopSilent, extractLoop_aux]

theorem foldl_extract_eq_writeMembers (ms : List Member) (sub : List Member) (fs : FS)
    (h : ∀ m ∈ sub, getinfo ms m.name = some m) :
    (sub.map (·.name)).foldl (extract ms) fs = writeMembers fs sub := by
  induction sub generalizing fs with
  | nil => rfl
  | cons m sub ih =>
    simp only [List.map_cons, List.foldl_cons]
    rw [show extract ms fs m.name = setFile fs (sanitize m.name) (.bytes m.content) by
          simp [extract, h m (List.mem_cons_self _ _)]]
    exact ih _ fun m' hm' => h m' (List.mem_cons_of_mem _ hm')

theorem extractLoopSilent_eq_writeMembers (ms : List Member) (fs : FS)
    (hnd : (namelist ms).Nodup) :
    extractLoopSilent fs ms = writeMembers fs ms :=
  foldl_extract_eq_writeMembers ms ms fs (getinfo_self_of_nodup ms hnd)

theorem getFile_writeMembers_ne (fs : FS) (ms : List Member) (p : Path)
    (h : ∀ m ∈ ms, sanitize m.name ≠ p) :
    getFile (writeMembers fs ms) p = getFile fs p := by
  induction ms generalizing fs with
  | nil => rfl
  | cons m ms ih =>
    rw [writeMembers, ih _ fun m' hm' => h m' (List.mem_cons_of_mem _ hm')]
    exact getFile_setFile_ne fs _ p _ fun hh =>
      h m (List.mem_cons_self _ _) hh.symm

theorem hasKey_writeMembers_ne (fs : FS) (ms : List Member) (p : Path)
    (h : ∀ m ∈ ms, sanitize m.name ≠ p) :
    hasKey (writeMembers fs ms) p = hasKey fs p := by
  induction ms generalizing fs with
  | nil => rfl
  | cons m ms ih =>
    rw [writeMembers, ih _ fun m' hm' => h m' (List.mem_cons_of_mem _ hm')]
    rw [hasKey_setFile]
    exact if_neg fun hh => h m (List.mem_cons_self _ _) hh.symm

theorem getFile_writeMembers_self (fs : FS) (ms : List Member)
    (hnd : (ms.map fun m => sanitize m.name).Nodup) :
    ∀ m ∈ ms, getFile (writeMembers fs ms) (sanitize m.name) = some (.bytes m.content) := by
  induction ms generalizing fs with
  | nil => simp
  | cons m0 ms ih =>
    simp only [List.map_cons, List.nodup_cons] at hnd
    intro m hm
    rcases List.mem_cons.1 hm with rfl | hm
    · rw [writeMembers]
      rw [getFile_writeMembers_ne _ ms _ fun m' hm' heq =>
            hnd.1 (by rw [← heq]; exact List.mem_map_of_mem (fun m => sanitize m.name) hm')]
      exact getFile_setFile_self fs _ _
    · rw [writeMembers]
      exact ih _ hnd.2 m hm

theorem length_writeMembers (fs : FS) (ms : List Member)
    (hnd : (ms.map fun m => sanitize m.name).Nodup)
    (hfresh : ∀ m ∈ ms, hasKey fs (sanitize m.name) = false) :
    (writeMembers fs ms).length = fs.length + ms.length := by
  induction ms generalizing fs with
  | nil => rfl
  | cons m0 ms ih =>
    simp only [List.map_cons, List.nodup_cons] at hnd
    rw [writeMembers]
    rw [ih _ hnd.2]
    · rw [length_setFile_of_not_hasKey fs _ _ (hfresh m0 (List.mem_cons_self _ _))]
      simp only [List.length_cons]
      omega
    · intro m hm
      rw [hasKey_setFile]
      rw [if_neg fun heq =>
            hnd.1 (by rw [← heq]; exact List.mem_map_of_mem (fun m => sanitize m.name) hm)]
      exact hfresh m (List.mem_cons_of_mem _ hm)

theorem eraseKey_writeMembers (fs : FS) (ms : List Member) (p : Path)
    (h : ∀ m ∈ ms, sanitize m.name ≠ p) :
    eraseKey (writeMembers fs ms) p = writeMembers (eraseKey fs p) ms := by
  induction ms generalizing fs with
  | nil => rfl
  | cons m ms ih =>
    rw [writeMembers, ih _ fun m' hm' => h m' (List.mem_cons_of_mem _ hm'), writeMembers,
      eraseKey_setFile_ne fs _ p _ (h m (List.mem_cons_self _ _))]

/-! ### Characterizing the pipeline stages -/

theorem cleanup_of_hasKey (fs : FS) (h : hasKey fs archivePath = true) :
    cleanup fs = ⟨eraseKey fs archivePath, none⟩ := by
  rw [cleanup, osRemove, if_pos h]

theorem cleanup_of_not_hasKey (fs : FS) (h : hasKey fs archivePath = false) :
    cleanup fs = ⟨fs, some .notFoundError⟩ := by
  rw [cleanup, osRemove, if_neg (by simp [h])]

theorem run_archive_nil (ms : List Member) (hnd : (namelist ms).Nodup)
    (hcl : ∀ m ∈ ms, sanitize m.name ≠ archivePath) :
    run ⟨some (.archive ms), []⟩ = ⟨writeMembers [] ms, none⟩ := by
  have hloop : (extractLoop (setFile [] archivePath
        (.container (.archive ms))) ms).1
      = writeMembers [(archivePath, .container (.archive ms))] ms := by
    rw [extractLoop_eq]
    exact extractLoopSilent_eq_writeMembers ms _ hnd
  have hkey : hasKey (writeMembers [(archivePath,
        FileContent.container (.archive ms))] ms) archivePath = true := by
    rw [hasKey_writeMembers_ne _ _ _ hcl]
    simp [hasKey]
  have hers : eraseKey (writeMembers [(archivePath,
        FileContent.container (.archive ms))] ms) archivePath
      = writeMembers [] ms := by
    rw [eraseKey_writeMembers _ _ _ hcl]
    have : eraseKey [(archivePath, FileContent.container (.archive ms))] archivePath
        = [] := by simp [eraseKey]
    rw [this]
  simp only [run]
  rw [hloop, cleanup_of_hasKey _ hkey, hers]

/-! ### The claims -/

/-- C1: for every well-formed archive with `N` members (pairwise-distinct
sanitized names that are not the archive file's own name), running the
pipeline from an empty working directory succeeds and leaves exactly `N`
files, one at each member's internal name, holding exactly that member's
decompressed bytes. -/
theorem pipeline_extracts_all_members (ms : List Member) (w : World)
    (hnet : w.network = some (.archive ms)) (hfs : w.fs = [])
    (hwf : WellFormed ms) :
    (run w).err = none ∧ (run w).fs.length = ms.length ∧
      ∀ m ∈ ms, getFile (run w).fs m.name = some (.bytes m.content) := by
  obtain ⟨hnd, hprop⟩ := hwf
  have hw : w = ⟨some (.archive ms), []⟩ := by
    rcases w with ⟨net, fs⟩
    simp only at hnet hfs
    rw [hnet, hfs]
  rw [hw]
  have hcl : ∀ m ∈ ms, sanitize m.name ≠ archivePath := fun m hm heq =>
    (hprop m hm).2 (by rw [← (hprop m hm).1]; exact heq)
  rw [run_archive_nil ms hnd hcl]
  have hmapeq : (ms.map fun m => sanitize m.name) = ms.map (·.name) :=
    List.map_congr_left fun m hm => (hprop m hm).1
  have hsannd : (ms.map fun m => sanitize m.name).Nodup := by
    rw [hmapeq]
    simpa [namelist] using hnd
  refine ⟨rfl, ?_, ?_⟩
  · have hlen := length_writeMembers [] ms hsannd fun m hm => rfl
    simpa using hlen
  · intro m hm
    have hread := getFile_writeMembers_self [] ms hsannd m hm
    rw [(hprop m hm).1] at hread
    exact hread

/-- Witness for C1: the spec's concrete scenario, an archive holding
`a/b.txt` with content "hello" and `c.txt` with content "world". -/
theorem pipeline_extracts_all_members_witness :
    (run ⟨some (.archive [⟨["a", "b.txt"], [104, 101, 108, 108, 111]⟩,
        ⟨["c.txt"], [119, 111, 114, 108, 100]⟩]), []⟩).err = none ∧
    (run ⟨some (.archive [⟨["a", "b.txt"], [104, 101, 108, 108, 111]⟩,
        ⟨["c.txt"], [119, 111, 114, 108, 100]⟩]), []⟩).fs.length = 2 ∧
    ∀ m ∈ [Member.mk ["a", "b.txt"] [104, 101, 108, 108, 111],
        Member.mk ["c.txt"] [119, 111, 114, 108, 100]],
      getFile (run ⟨some (.archive [⟨["a", "b.txt"], [104, 101, 108, 108, 111]⟩,
        ⟨["c.txt"], [119, 111, 114, 108, 100]⟩]), []⟩).fs m.name
        = some (.bytes m.content) :=
  pipeline_extracts_all_members
    [⟨["a", "b.txt"], [104, 101, 108, 108, 111]⟩,
      ⟨["c.txt"], [119, 111, 114, 108, 100]⟩]
    ⟨some (.archive [⟨["a", "b.txt"], [104, 101, 108, 108, 111]⟩,
      ⟨["c.txt"], [119, 111, 114, 108, 100]⟩]), []⟩
    rfl rfl (by constructor <;> decide)

/-- C2 counterexample: the claim says a member whose internal path escapes
the working directory (here `../evil.txt`) is written wherever that path
points.  In fact `ZipFile.extract` drops the `..` component, so nothing is
written at the escaping path `../evil.txt`; the bytes land at `evil.txt`
inside the working directory. -/
theorem path_traversal_guarded_counterexample :
    getFile (extract [⟨["..", "evil.txt"], [1, 2, 3]⟩] [] ["..", "evil.txt"])
        ["..", "evil.txt"] = none ∧
    getFile (extract [⟨["..", "evil.txt"], [1, 2, 3]⟩] [] ["..", "evil.txt"])
        ["evil.txt"] = some (.bytes [1, 2, 3]) := by decide

/-- C2 (amended): extracting a member writes its bytes at the sanitized
form of its internal path, and the sanitized path has no empty, `.` or `..`
component, so the write always stays inside the working directory. -/
theorem extract_writes_inside_cwd (ms : List Member) (fs : FS) (n : Path)
    (m : Member) (h : getinfo ms n = some m) :
    extract ms fs n = setFile fs (sanitize m.name) (.bytes m.content) ∧
      insideCwd (sanitize m.name) = true := by
  constructor
  · rw [extract, h]
  · apply List.all_eq_true.2
    intro c hc
    exact (List.mem_filter.1 hc).2

/-- Witness for C2 (amended) at a member named `../x.txt`. -/
theorem extract_writes_inside_cwd_witness :
    extract [⟨["..", "x.txt"], [7]⟩] [] ["..", "x.txt"]
        = setFile [] (sanitize ["..", "x.txt"]) (.bytes [7]) ∧
      insideCwd (sanitize ["..", "x.txt"]) = true :=
  extract_writes_inside_cwd [⟨["..", "x.txt"], [7]⟩] [] ["..", "x.txt"]
    ⟨["..", "x.txt"], [7]⟩ (by decide)

/-- C3: when the downloaded file is not a valid zip archive, the pipeline
fails with the format error, the working directory holds the downloaded
file at the archive path, and no other path changed: zero members were
extracted. -/
theorem malformed_download_formatError (w : World) (raw : Bytes)
    (h : w.network = some (.malformed raw)) :
    (run w).err = some .formatError ∧
      (run w).fs = setFile w.fs archivePath (.container (.malformed raw)) ∧
      ∀ p, p ≠ archivePath → getFile (run w).fs p = getFile w.fs p := by
  have hrun : run w = ⟨setFile w.fs archivePath (.container (.malformed raw)),
      some .formatError⟩ := by
    rw [run, h]
  rw [hrun]
  exact ⟨rfl, rfl, fun p hp => getFile_setFile_ne w.fs archivePath p _ hp⟩

/-- Witness for C3 at a two-byte non-zip download into an empty directory. -/
theorem malformed_download_formatError_witness :
    (run ⟨some (.malformed [80, 75]), []⟩).err = some .formatError ∧
      (run ⟨some (.malformed [80, 75]), []⟩).fs
        = setFile [] archivePath (.container (.malformed [80, 75])) ∧
      ∀ p, p ≠ archivePath →
        getFile (run ⟨some (.malformed [80, 75]), []⟩).fs p = getFile [] p :=
  malformed_download_formatError ⟨some (.malformed [80, 75]), []⟩ [80, 75] rfl

/-- C4: whenever the pipeline exits successfully, no file is left at the
archive path `kias.zip`: the downloaded archive file no longer exists in
the working directory. -/
theorem archive_removed_after_success (w : World) (h : (run w).err = none) :
    getFile (run w).fs archivePath = none := by
  rcases w with ⟨net, fs⟩
  cases net with
  | none => simp [run] at h
  | some d =>
    cases d with
    | malformed raw => simp [run] at h
    | archive ms =>
      by_cases hk : hasKey (extractLoop (setFile fs archivePath
          (.container (.archive ms))) ms).1 archivePath = true
      · have hcle := cleanup_of_hasKey _ hk
        show getFile (cleanup (extractLoop (setFile fs archivePath
            (.container (.archive ms))) ms).1).fs archivePath = none
        rw [hcle]
        exact getFile_eraseKey_self _ _
      · exfalso
        have hcle := cleanup_of_not_hasKey _ (by
          rcases Bool.eq_false_or_eq_true (hasKey (extractLoop (setFile fs archivePath
              (.container (.archive ms))) ms).1 archivePath) with hb | hb
          · exact absurd hb hk
          · exact hb)
        have herr : (run ⟨some (.archive ms), fs⟩).err = some .notFoundError := by
          show (cleanup (extractLoop (setFile fs archivePath
              (.container (.archive ms))) ms).1).err = some .notFoundError
          rw [hcle]
        rw [herr] at h
        exact Option.noConfusion h

/-- Witness for C4: a successful run on an empty archive. -/
theorem archive_removed_after_success_witness :
    getFile (run ⟨some (.archive []), []⟩).fs archivePath = none :=
  archive_removed_after_success ⟨some (.archive []), []⟩ (by decide)

/-- C5: the extraction loop processes exactly the names of the archive's
directory table (`namelist`), in exactly that order: the trace of processed
names recorded by the loop equals `namelist ms` with no re-ordering. -/
theorem members_processed_in_namelist_order (fs : FS) (ms : List Member) :
    (extractLoop fs ms).2 = namelist ms := by
  rw [extractLoop_eq]

/-- C6: if no file exists at the archive path when the cleanup stage runs,
`os.remove` fails with the not-found error and the run ends in failure with
the directory untouched; the missing file is not treated as a no-op
success. -/
theorem cleanup_missing_archive_notFoundError (fs : FS)
    (h : hasKey fs archivePath = false) :
    osRemove fs archivePath = .error .notFoundError ∧
      cleanup fs = ⟨fs, some .notFoundError⟩ := by
  refine ⟨?_, cleanup_of_not_hasKey fs h⟩
  rw [osRemove, if_neg (by simp [h])]

/-- Witness for C6 at an empty working directory. -/
theorem cleanup_missing_archive_notFoundError_witness :
    osRemove [] archivePath = .error .notFoundError ∧
      cleanup [] = ⟨[], some .notFoundError⟩ :=
  cleanup_missing_archive_notFoundError [] rfl

/-- C7: when the download fails, the pipeline stops with the network error
and the working directory is exactly as it started: no member file was
written and neither the extraction loop nor the cleanup stage ran. -/
theorem network_failure_aborts_pipeline (w : World) (h : w.network = none) :
    run w = ⟨w.fs, some .networkError⟩ := by
  rw [run, h]

/-- Witness for C7 at an unreachable remote and an empty directory. -/
theorem network_failure_aborts_pipeline_witness :
    run ⟨none, []⟩ = ⟨[], some .networkError⟩ :=
  network_failure_aborts_pipeline ⟨none, []⟩ rfl

/-- C8: running the pipeline on a well-formed archive with zero members
succeeds: nothing is extracted (the final directory is the initial one with
any file at the archive path gone) and the downloaded archive is deleted. -/
theorem empty_archive_run_succeeds (w : World)
    (h : w.network = some (.archive [])) :
    (run w).err = none ∧ (run w).fs = eraseKey w.fs archivePath := by
  have hrun : run w = cleanup (extractLoop (setFile w.fs archivePath
      (.container (.archive []))) []).1 := by
    rw [run, h]
  have hfs1 : (extractLoop (setFile w.fs archivePath
      (.container (.archive []))) []).1
      = setFile w.fs archivePath (.container (.archive [])) := rfl
  rw [hrun, hfs1, cleanup_of_hasKey _ (by rw [hasKey_setFile]; simp)]
  exact ⟨rfl, eraseKey_setFile_self w.fs archivePath
    (FileContent.container (.archive []))⟩

/-- Witness for C8: the zero-member archive downloaded into an empty
directory. -/
theorem empty_archive_run_succeeds_witness :
    (run ⟨some (.archive []), []⟩).err = none ∧
      (run ⟨some (.archive []), []⟩).fs = eraseKey [] archivePath :=
  empty_archive_run_succeeds ⟨some (.archive []), []⟩ rfl

/-- C9: the pipeline with the tqdm progress counter and the pipeline with
progress reporting removed produce identical outcomes on every input world:
progress reporting has no effect on correctness. -/
theorem progress_reporting_no_effect (w : World) : run w = runSilent w := by
  rcases w with ⟨net, fs⟩
  cases net with
  | none => rfl
  | some d =>
    cases d with
    | malformed raw => rfl
    | archive ms =>
      show cleanup (extractLoop (setFile fs archivePath
          (.container (.archive ms))) ms).1
        = cleanup (extractLoopSilent (setFile fs archivePath
          (.container (.archive ms))) ms)
      rw [extractLoop_eq]

/-- C10: extracting a member whose path already names a file in the working
directory overwrites that file: afterwards the path holds the member's
bytes.  `extract` is a total function into `FS`, so extraction never fails
on a pre-existing file. -/
theorem extract_overwrites_existing_file (ms : List Member) (fs : FS)
    (m : Member) (c0 : FileContent) (hinfo : getinfo ms m.name = some m)
    (_hpre : getFile fs (sanitize m.name) = some c0) :
    getFile (extract ms fs m.name) (sanitize m.name)
      = some (.bytes m.content) := by
  rw [extract, hinfo]
  exact getFile_setFile_self fs _ _

/-- Witness for C10: `c.txt` pre-exists with content `[0]` and is
overwritten with the member's content `[9]`. -/
theorem extract_overwrites_existing_file_witness :
    getFile (extract [⟨["c.txt"], [9]⟩] [(["c.txt"], .bytes [0])]
        ["c.txt"]) (sanitize ["c.txt"]) = some (.bytes [9]) :=
  extract_overwrites_existing_file [⟨["c.txt"], [9]⟩]
    [(["c.txt"], .bytes [0])] ⟨["c.txt"], [9]⟩ (.bytes [0])
    (by decide) (by decide)

end GetData
